import Mathlib

/-!
Shallow embedding of `smt/extensions/moe.py` (Mixture of Experts).

Modelling conventions:
* numpy floating-point arithmetic is modelled as exact arithmetic over `ℚ`;
  square roots (`np.linalg.norm`, `mse ** 0.5`) live in `ℝ` via `Real.sqrt`.
* a division whose divisor is zero has no finite IEEE result; where the claims
  depend on this (the relative-error fields of `Error`), values are modelled
  by the abstraction `FVal` — a finite rational, `+inf` (nonzero/0), or `NaN`
  (0/0) — with IEEE comparison semantics (`NaN` compares false), so that the
  builtin `max` and `np.mean` behave exactly as in the source.
* `scipy.stats.multivariate_normal` frozen distributions are external
  collaborators (spec section 1): a `Gauss` carries its `mean`, `cov` and an
  abstract density function `pdf`.
* Python lists indexed out of range raise `IndexError`; the embedding uses
  `List.getD` with a junk default, and every theorem below keeps the indices in
  range through its hypotheses.
* dictionaries (`rmses`, `sms` in `_find_best_model`) are association lists
  with overwrite-on-existing-key semantics (`dictUpsert`); their Python
  iteration order is implementation defined, the embedding iterates them in
  insertion order (every property proved below is order independent).
-/

set_option linter.unusedVariables false

namespace Moe

/-- Largest element of a list of rationals, `max(prob)` in Python.
`max []` raises in Python; the `0` default is junk, unreachable for `K ≥ 1`. -/
def listMax : List ℚ → ℚ
  | [] => 0
  | h :: t => t.foldl max h

/-- First index of `a` in `l`, Python `list.index`; returns `l.length` when
absent (Python raises there, a case never reached below). -/
def listIndex (l : List ℚ) (a : ℚ) : ℕ :=
  match l with
  | [] => 0
  | h :: t => if h = a then 0 else listIndex t a + 1

/-- A frozen multivariate normal distribution as used by the gate
(`sct.multivariate_normal(mean, cov, True)`).  The density itself is computed
by scipy, an external collaborator: it is an abstract function here. -/
structure Gauss where
  mean : List ℚ
  cov : List (List ℚ)
  pdf : List ℚ → ℚ

/-- Junk default used for `gauss_list[k]` out-of-range access (raises in
Python, unreachable under the alignment hypotheses of the theorems). -/
def gaussJunk : Gauss := ⟨[], [], fun _ => 0⟩

/-- The unnormalized gate values `val = weight[k] * gauss_list[k].pdf(x)`
accumulated by the first loop of `_proba_cluster_one_sample`. -/
def gateNumerators (weight : List ℚ) (gauss_list : List Gauss) (x : List ℚ) :
    List ℚ :=
  (List.range weight.length).map
    (fun k => weight.getD k 0 * (gauss_list.getD k gaussJunk).pdf x)

/-- `_proba_cluster_one_sample(weight, gauss_list, x)` from moe.py:
accumulate `val = weight[k]*pdf_k(x)` and their sum `rad`; if `rad != 0`
divide every entry by `rad`; the hard label is `prob.index(max(prob))`. -/
def _proba_cluster_one_sample (weight : List ℚ) (gauss_list : List Gauss)
    (x : List ℚ) : List ℚ × ℕ :=
  let prob := gateNumerators weight gauss_list x
  let rad := prob.sum
  let prob2 := if rad ≠ 0 then prob.map (· / rad) else prob
  (prob2, listIndex prob2 (listMax prob2))

/-- `proba_cluster(dim, weight, gauss_list, x)` from moe.py: per-sample loop,
with the `n == 1` fast path appending `[1]` and label `0` without touching the
distributions. -/
def proba_cluster (dim : ℕ) (weight : List ℚ) (gauss_list : List Gauss)
    (x : List (List ℚ)) : List (List ℚ) × List ℕ :=
  let pc := x.map (fun xi =>
    if weight.length = 1 then ([(1 : ℚ)], 0)
    else _proba_cluster_one_sample weight gauss_list xi)
  (pc.map Prod.fst, pc.map Prod.snd)

/-! Linear-algebra helpers for `_derive_proba_cluster_one_sample`.
`np.linalg.inv` is modelled through the cofactor formula; on a singular matrix
numpy raises `LinAlgError`, here the division by `det = 0` produces junk.
No claim below exercises this code path (the claims about derivatives only
touch the `K = 1` branch, which performs no linear algebra at all). -/

/-- Determinant by Laplace expansion along the first row. -/
def detL (m : List (List ℚ)) : ℚ :=
  match m with
  | [] => 1
  | row :: rest =>
      ((List.range row.length).map
        (fun j => (-1) ^ j * row.getD j 0 *
          detL (rest.map (fun r => r.eraseIdx j)))).sum
termination_by m.length
decreasing_by simp_wf

/-- Adjugate matrix: entry `(i, j)` is the cofactor `C j i`. -/
def adjL (m : List (List ℚ)) : List (List ℚ) :=
  (List.range m.length).map (fun i => (List.range m.length).map (fun j =>
    (-1) ^ (i + j) * detL ((m.eraseIdx j).map (fun r => r.eraseIdx i))))

/-- `np.linalg.inv`, via `A⁻¹ = adj(A) / det(A)`. -/
def matInv (m : List (List ℚ)) : List (List ℚ) :=
  let d := detL m
  (adjL m).map (fun r => r.map (· / d))

/-- Elementwise vector difference, `x - mean` (numpy broadcasting on equal
lengths). -/
def vecSub (a b : List ℚ) : List ℚ := List.zipWith (· - ·) a b

/-- Elementwise vector sum. -/
def vecAdd (a b : List ℚ) : List ℚ := List.zipWith (· + ·) a b

/-- `np.dot(v, m)` for a row vector `v` and matrix `m`:
`(v · m)_j = Σ_i v_i * m_i_j`. -/
def vecMatMul (v : List ℚ) (m : List (List ℚ)) : List ℚ :=
  (List.range (m.headD []).length).map
    (fun j => (List.zipWith (fun vi row => vi * row.getD j 0) v m).sum)

/-- Scalar times vector. -/
def scalMul (c : ℚ) (v : List ℚ) : List ℚ := v.map (c * ·)

/-- `_derive_proba_cluster_one_sample(weight, gauss_list, x)` from moe.py:
quotient rule on `prob_k = u_k / v`.  In the source `vprime` starts as the
scalar `0` and numpy broadcasts the first subtraction; the embedding starts
from the zero vector of the input dimension. -/
def _derive_proba_cluster_one_sample (weight : List ℚ)
    (gauss_list : List Gauss) (x : List ℚ) : List (List ℚ) :=
  let v := (gateNumerators weight gauss_list x).sum
  let der := fun k => vecMatMul (vecSub x (gauss_list.getD k gaussJunk).mean)
    (matInv (gauss_list.getD k gaussJunk).cov)
  let vprime := ((List.range weight.length).map (fun k =>
    scalMul (-(weight.getD k 0 * (gauss_list.getD k gaussJunk).pdf x))
      (der k))).foldl vecAdd (List.replicate x.length 0)
  (List.range weight.length).map (fun k =>
    let u := weight.getD k 0 * (gauss_list.getD k gaussJunk).pdf x
    let uprime := scalMul (-u) (der k)
    List.zipWith (fun up vp => (v * up - u * vp) / v ^ 2) uprime vprime)

/-- `derive_proba_cluster(dim, weight, gauss_list, x)` from moe.py: per-sample
loop; the `n == 1` fast path appends the Python list `[0]` — a single scalar
zero for the single cluster (not a `dim`-length vector) — without touching the
distributions.  The scalar cluster entry is modelled as the one-element vector
`[0]`. -/
def derive_proba_cluster (dim : ℕ) (weight : List ℚ) (gauss_list : List Gauss)
    (x : List (List ℚ)) : List (List (List ℚ)) :=
  x.map (fun xi =>
    if weight.length = 1 then [[(0 : ℚ)]]
    else _derive_proba_cluster_one_sample weight gauss_list xi)

/-- `MOE._predict_hard_output(x)`: the gate's hard label selects the local
model evaluated on the sample.  A local model `predict_values` restricted to a
single row is an abstract function `List ℚ → ℚ` (external regressor). -/
def _predict_hard_output (dim : ℕ) (weight : List ℚ) (gauss_list : List Gauss)
    (model_list : List (List ℚ → ℚ)) (x : List (List ℚ)) : List ℚ :=
  let sort_cluster := (proba_cluster dim weight gauss_list x).2
  (List.range sort_cluster.length).map (fun i =>
    (model_list.getD (sort_cluster.getD i 0) (fun _ => 0)) (x.getD i []))

/-- `MOE._predict_smooth_output(x)`: probability-weighted sum of every local
model's prediction, `Σ_j model_j(x_i) * sort_proba[i][j]`. -/
def _predict_smooth_output (dim : ℕ) (weight : List ℚ)
    (gauss_list : List Gauss) (model_list : List (List ℚ → ℚ))
    (x : List (List ℚ)) : List ℚ :=
  let sort_proba := (proba_cluster dim weight gauss_list x).1
  (List.range sort_proba.length).map (fun i =>
    ((List.range model_list.length).map (fun j =>
      (model_list.getD j (fun _ => 0)) (x.getD i []) *
        ((sort_proba.getD i []).getD j 0))).sum)

/-- One iteration of the binning loops of `sort_values_by_cluster` and
`cut_list`: `bins[label].append(v)`.  (`List.set` out of range is a no-op
where Python would raise `IndexError`; the theorems keep labels in range.) -/
def binFoldl (bins : List (List α)) (pairs : List (ℕ × α)) :
    List (List α) :=
  pairs.foldl (fun bs p => bs.set p.1 ((bs.getD p.1 []) ++ [p.2])) bins

/-- `sort_values_by_cluster(values, number_cluster, sort_cluster)` from
moe.py: start from `number_cluster` empty lists and run
`sorted_values[sort_cluster[i]].append(values[i])` over the rows in order. -/
def sort_values_by_cluster (values : List α) (number_cluster : ℕ)
    (sort_cluster : List ℕ) : List (List α) :=
  binFoldl (List.replicate number_cluster []) (sort_cluster.zip values)

/-- The nested `while` loops of `cut_list`: the outer loop resets `j` to `0`,
the inner loop appends `list_[i]` to `n_list[j]` and advances `i` and `j`
together while `j < n`.  Equivalently, the current bin index `j` cycles
through `0, 1, …, n-1`.  (For `n = 0` the source loops forever; the function
is only ever called with `n = 10`.) -/
def cutListAux : List α → ℕ → ℕ → List (List α) → List (List α)
  | [], _, _, bins => bins
  | v :: rest, n, j, bins =>
      cutListAux rest n (if j + 1 = n then 0 else j + 1)
        (bins.set j ((bins.getD j []) ++ [v]))

/-- `cut_list(list_, n)` from moe.py: distribute the rows round robin over
`n` blocks. -/
def cut_list (list_ : List α) (n : ℕ) : List (List α) :=
  cutListAux list_ n 0 (List.replicate n [])

/-- The cyclic sequence of bin indices produced by the `cut_list` loops:
`j, j+1, …, n-1, 0, 1, …` (`k` terms starting from `j`). -/
def cycLabels : ℕ → ℕ → ℕ → List ℕ
  | _, _, 0 => []
  | j, n, k + 1 => j :: cycLabels (if j + 1 = n then 0 else j + 1) n k

/-- `concat_except(list_, n)` from moe.py: concatenate every sublist whose
index differs from `n`, in order. -/
def concat_except (list_ : List (List α)) (n : ℕ) : List α :=
  ((list_.enum.filter (fun p => p.1 ≠ n)).map Prod.snd).flatten

/-- Events of the `MOE._apply` prefix that matter to the claims: whether the
external clustering provider (`mixture.GMM(...).fit`) gets invoked. -/
inductive TrainEvent where
  | clusterFit
  deriving DecidableEq, Repr

/-- The cluster-count check of `MOE._apply` (moe.py lines 121-139), for a
requested `number_cluster ≥ 1` (the `number_cluster is 0` branch delegates to
`_default_number_cluster`, a routine the spec leaves as an open question and
which no claim below exercises).  `max_number_cluster = int(len(x)/10) + 1`
is computed from `len(x)`, the FULL dataset handed to `train`, before the
90/10 split; if the requested count exceeds it, `ValueError` is raised and
the clustering provider is never reached, otherwise `cluster.fit` runs. -/
def applyClusterCheck (values : List α) (number_cluster : ℕ) :
    Except String (List TrainEvent) :=
  let max_number_cluster := values.length / 10 + 1
  if number_cluster > max_number_cluster then
    Except.error "The number of clusters is too high considering the number of points"
  else
    Except.ok [TrainEvent.clusterFit]

/-- Abstraction of the IEEE values arising in the relative-error fields of
the `Error` class: a finite value, `+∞` (`nonzero/0`, then `np.abs`), or
`NaN` (`0/0`).  `-∞` never arises there because of the `np.abs`. -/
inductive FVal where
  | fin : ℚ → FVal
  | inf : FVal
  | nan : FVal
  deriving DecidableEq, Repr

/-- IEEE `>` as used by Python's builtin `max` loop: any comparison
involving `NaN` is false; `+∞` is greater than every finite value. -/
def FVal.fgt : FVal → FVal → Bool
  | _, .nan => false
  | .nan, _ => false
  | .inf, .inf => false
  | .inf, .fin _ => true
  | .fin _, .inf => false
  | .fin a, .fin b => decide (b < a)

/-- Finite (neither `+∞` nor `NaN`). -/
def FVal.isFinite : FVal → Bool
  | .fin _ => true
  | .inf => false
  | .nan => false

/-- The rational carried by a finite value (junk `0` otherwise; only ever
read when every value summed is finite). -/
def FVal.finValD : FVal → ℚ
  | .fin q => q
  | .inf => 0
  | .nan => 0

/-- Multiplication by the positive scalar `100` (`self.err_rel = 100*err`):
`100 * (+∞) = +∞` and `100 * NaN = NaN`. -/
def FVal.smul (c : ℚ) : FVal → FVal
  | .fin q => .fin (c * q)
  | .inf => .inf
  | .nan => .nan

/-- The loop of Python's builtin `max`: keep the current value, replace it
when the next element compares strictly greater — so a `NaN` never replaces
anything, and nothing replaces a `NaN` current value. -/
def maxFoldAux : List FVal → FVal → FVal
  | [], cur => cur
  | x :: rest, cur => maxFoldAux rest (if FVal.fgt x cur then x else cur)

/-- `max(self.err_rel)`: seed with the first element, then fold.
`max([])` raises in Python; the junk `fin 0` result is never relied upon. -/
def errRelMax : List FVal → FVal
  | [] => .fin 0
  | e :: rest => maxFoldAux rest e

/-- `np.mean(self.err_rel)` over IEEE values: any `NaN` term makes the mean
`NaN`; otherwise any `+∞` term makes it `+∞` (only `+∞` can occur, so no
`∞ - ∞`); otherwise it is the finite mean. -/
def errRelMean (l : List FVal) (length : ℕ) : FVal :=
  if FVal.nan ∈ l then .nan
  else if FVal.inf ∈ l then .inf
  else .fin ((l.map FVal.finValD).sum / length)

/-- The `Error` class of moe.py (the ValidationReport).  Numeric fields that
the source computes by total operations are plain rationals; `l_two` and
`l_two_rel` are square roots and live in `ℝ` through `Error.l_two` below,
the structure stores the radicand.  The relative-error fields, which divide
by the true outputs, are `FVal`s; the variance-guarded fields are `Option`s
with `none` standing for Python's `None`. -/
structure Error where
  l_two_sq : ℚ
  norm_true_sq : ℚ
  mse : ℚ
  rmse : ℚ
  err_rel : List FVal
  err_rel_mean : FVal
  err_rel_max : FVal
  err_abs_max : ℚ
  lof : Option ℚ
  r_two : Option ℚ

/-- `np.linalg.norm(y_true - y_calc, 2)` squared: `Σ (t_i - c_i)²`. -/
def l2sq (y_true y_calc : List ℚ) : ℚ :=
  (List.zipWith (fun t c => (t - c) ^ 2) y_true y_calc).sum

/-- `np.var(y)`: mean of the squared deviations from the mean. -/
def npVar (y : List ℚ) : ℚ :=
  let m := y.sum / y.length
  ((y.map (fun t => (t - m) ^ 2)).sum) / y.length

/-- `Error.__init__(y_array_true, y_array_calc)` from moe.py.
* `l_two = ‖t - c‖₂`, `mse = l_two² / len`, and — as literally written in the
  source — `rmse = mse ** 5` (the fifth power, not a square root).
* `err = np.abs((t - c) / t)`: an entry whose true value `t` is zero has no
  finite IEEE result — `+∞` when `c ≠ 0`, `NaN` when `c = 0` (`0/0`);
  `err_rel = 100 * err`.
* `err_rel_mean = np.mean(err_rel)` (`NaN`/`+∞` propagate through the sum);
  `err_rel_max = max(err_rel)` is Python's builtin `max`, whose IEEE
  comparisons let a `NaN` win only from the seed (first) position.
* `err_abs_max = ‖t - c‖∞`.
* `lof`/`r_two` are `None` when `|np.var(t)| ≤ 1e-10`. -/
def mkError (y_array_true y_array_calc : List ℚ) : Error :=
  let length := y_array_true.length
  let l_two_sq := l2sq y_array_true y_array_calc
  let mse := l_two_sq / length
  let rmse := mse ^ 5
  let err := List.zipWith
    (fun t c => if t = 0
      then (if c = 0 then FVal.nan else FVal.inf)
      else FVal.fin |(t - c) / t|)
    y_array_true y_array_calc
  let err_rel := err.map (FVal.smul 100)
  let err_rel_mean := errRelMean err_rel length
  let err_rel_max := errRelMax err_rel
  let err_abs_max :=
    listMax (List.zipWith (fun t c => |t - c|) y_array_true y_array_calc)
  let var := npVar y_array_true
  { l_two_sq := l_two_sq
    norm_true_sq := (y_array_true.map (fun t => t ^ 2)).sum
    mse := mse
    rmse := rmse
    err_rel := err_rel
    err_rel_mean := err_rel_mean
    err_rel_max := err_rel_max
    err_abs_max := err_abs_max
    lof := if |var| > 1 / 10000000000 then some (100 * mse / var) else none
    r_two := if |var| > 1 / 10000000000
      then some (1 - (100 * mse / var) / 100) else none }

/-- `self.l_two` of the source: the square root of the stored radicand. -/
noncomputable def Error.l_two (e : Error) : ℝ := Real.sqrt e.l_two_sq

/-! ### Model Selector (`MOE._find_best_model` and the per-cluster loop of
`MOE._fit_without_clustering`) -/

/-- The exclusion list of `_find_best_model`:
`if name in ['RMTC', 'RMTB', 'GEKPLS', 'KRG']: continue`. -/
def excludedNames : List String := ["RMTC", "RMTB", "GEKPLS", "KRG"]

/-- A candidate surrogate model as the selector sees it: its key in the
`_surrogate_type` catalog (`name`), its `sm.name` attribute (the key used for
the `rmses`/`sms` dictionaries), and the row of predictions
`sm.predict_values(test_values[:, 0:dim])` the externally trained regressor
returns on the global validation inputs. -/
structure CandidateSM where
  catalogName : String
  smName : String
  actual : List ℚ
  deriving DecidableEq

/-- The scalar `mse = l_two² / len(expected)` computed inside
`_find_best_model` for one candidate (`l_two = ‖expected - actual‖₂`).
The source then takes `rmse = mse ** 0.5` and compares the `rmse` values;
since `√` is strictly monotone on the nonnegatives
(lemma `sqrt_lt_sqrt_iff_of_nonneg` below), the selection loop is modelled
on the `mse` values, and a candidate's RMSE is `Real.sqrt (mseOnTest …)` in
the statements. -/
def mseOnTest (expected actual : List ℚ) : ℚ :=
  l2sq expected actual / expected.length

/-- Python `dict` assignment `d[k] = v`: overwrite the existing binding of
`k`, or append a fresh one. -/
def dictUpsert {β : Type} (d : List (String × β)) (k : String) (v : β) :
    List (String × β) :=
  match d with
  | [] => [(k, v)]
  | (k', v') :: rest =>
      if k' = k then (k, v) :: rest else (k', v') :: dictUpsert rest k v

/-- Python `dict` read `d[k]`: first binding of `k` (`none` = `KeyError`). -/
def dictGet {β : Type} (d : List (String × β)) (k : String) : Option β :=
  match d with
  | [] => none
  | (k', v) :: rest => if k' = k then some v else dictGet rest k

/-- The evaluation loop of `_find_best_model`: skip the excluded catalog
entries, score the rest, and record `d[sm.name] = f sm`  (`f` builds the
`rmses` entry or the `sms` entry). -/
def evalLoop {β : Type} (f : CandidateSM → β) (cands : List CandidateSM) :
    List (String × β) :=
  cands.foldl (fun d sm =>
    if sm.catalogName ∈ excludedNames then d
    else dictUpsert d sm.smName (f sm)) []

/-- The minimum-search loop of `_find_best_model`:
`if best_rmse is None or rmse < best_rmse: best_name, best_rmse = name, rmse`
(first encountered wins ties). -/
def bestLoop (entries : List (String × ℚ)) : Option (String × ℚ) :=
  entries.foldl (fun best p =>
    match best with
    | none => some p
    | some (bn, bv) => if p.2 < bv then some p else some (bn, bv)) none

/-- `MOE._find_best_model` from moe.py: build the `rmses` and `sms`
dictionaries over the non-excluded candidates, search the best score, and
return `sms[best_name]` (`none` models the `KeyError` on an empty search). -/
def _find_best_model (expected : List ℚ) (cands : List CandidateSM) :
    Option CandidateSM :=
  let rmses := evalLoop (fun sm => mseOnTest expected sm.actual) cands
  let sms := evalLoop (fun sm => sm) cands
  match bestLoop rmses with
  | none => none
  | some (best_name, _) => dictGet sms best_name

/-- The qualifying candidates: those whose catalog key is not excluded. -/
def qualifying (cands : List CandidateSM) : List CandidateSM :=
  cands.filter (fun c => c.catalogName ∉ excludedNames)

/-- The per-cluster body of `MOE._fit_without_clustering` when a new model is
searched (moe.py lines 260-273): when the surrogate catalog has exactly one
entry the source executes `pass` — the fast-path body is commented out, the
local variable `model` is never bound, and the following
`self.model_list.append(model)` raises `NameError`, modelled `none`;
otherwise the best model found is appended. -/
def fitClusterModel (expected : List ℚ) (catalog : List CandidateSM) :
    Option CandidateSM :=
  if catalog.length = 1 then none
  else _find_best_model expected catalog

/-- Concrete frozen distribution used by witnesses and counterexamples. -/
def gaussEx : Gauss := ⟨[0, 0], [[1, 0], [0, 1]], fun _ => 1⟩

end Moe

namespace Moe

/-! ### Helper lemmas -/

theorem sum_map_div (l : List ℚ) (s : ℚ) :
    (l.map (· / s)).sum = l.sum / s := by
  induction l with
  | nil => simp
  | cons h t ih => simp [ih, add_div]

/-! ### C1 -/

/-- C1: the claim states that the `rmse` field of the validation report
equals the square root of its `mse` field.  The source instead computes
`self.rmse = self.mse ** 5`: at `y_true = [1, 1]`, `y_calc = [3, 1]` the
report has `mse = 2` but `rmse = 2⁵ = 32 ≠ √2`. -/
theorem C1_rmse_field_is_fifth_power_of_mse :
    (mkError [1, 1] [3, 1]).mse = 2
    ∧ (mkError [1, 1] [3, 1]).rmse = 32
    ∧ ((mkError [1, 1] [3, 1]).rmse : ℝ) ≠
        Real.sqrt ((mkError [1, 1] [3, 1]).mse : ℝ) := by
  have h1 : (mkError [1, 1] [3, 1]).mse = 2 := by
    norm_num [mkError, l2sq]
  have h2 : (mkError [1, 1] [3, 1]).rmse = 32 := by
    norm_num [mkError, l2sq]
  refine ⟨h1, h2, ?_⟩
  rw [h1, h2]
  push_cast
  intro h
  have hs : Real.sqrt 2 ^ 2 = 2 := Real.sq_sqrt (by norm_num)
  rw [← h] at hs
  norm_num at hs

/-! ### C2 -/

/-- C2: the claim states that with a single-entry candidate catalog the
Model Selector phase uses that sole candidate directly and appends a trained
model of its type.  In the source the fast-path body is commented out
(`pass`), the local `model` is never bound, and the subsequent
`self.model_list.append(model)` raises `NameError`: no trained model is
produced, modelled here by the `none` result for every single-entry
catalog. -/
theorem C2_single_catalog_entry_produces_no_model (expected : List ℚ)
    (c : CandidateSM) :
    fitClusterModel expected [c] = none := rfl

/-! ### C4 -/

/-- C4: counterexample to the claim as stated.  The source bound
`max_number_cluster = int(len(x)/10) + 1` uses the FULL dataset size, not the
training-set size.  With 100 rows the training set (9 of the 10 round-robin
blocks) has 90 rows, so the claim's bound is `floor(90/10)+1 = 10` and a
request of 11 clusters should abort before clustering; the code's bound is
`floor(100/10)+1 = 11`, so it accepts 11 clusters and invokes the clustering
provider. -/
theorem C4_counterexample_bound_uses_full_dataset :
    (concat_except (cut_list (List.range 100) 10) 0).length = 90
    ∧ 11 > (concat_except (cut_list (List.range 100) 10) 0).length / 10 + 1
    ∧ applyClusterCheck (List.range 100) 11 =
        Except.ok [TrainEvent.clusterFit] := by
  refine ⟨by decide, by decide, by rfl⟩

/-- C4 (amended): for every configuration whose requested number of clusters
exceeds `floor(N/10)+1` where `N` is the size of the FULL dataset handed to
`train` (before the 90/10 split), `train` aborts with the fatal
`ValueError`; the `Except.error` result carries no `clusterFit` event, i.e.
the clustering provider is never invoked. -/
theorem C4_cluster_count_check {α : Type} (values : List α)
    (number_cluster : ℕ) (h0 : 0 < number_cluster)
    (h : number_cluster > values.length / 10 + 1) :
    applyClusterCheck values number_cluster =
      Except.error
        "The number of clusters is too high considering the number of points" := by
  simp [applyClusterCheck, h]

/-- C4 witness: 12 requested clusters on a 100-row dataset abort. -/
theorem C4_cluster_count_check_witness :
    applyClusterCheck (List.range 100) 12 =
      Except.error
        "The number of clusters is too high considering the number of points" :=
  C4_cluster_count_check (List.range 100) 12 (by decide) (by decide)

/-! ### C9 -/

/-- C9: counterexample to the claim as stated.  For a two-dimensional input
and a single cluster, `derive_proba_cluster` appends the Python list `[0]` —
one scalar zero — not the zero vector of the input space (which has two
components, `[0, 0]`). -/
theorem C9_counterexample_derivative_not_zero_vector :
    (derive_proba_cluster 2 [1] [gaussEx] [[0, 0]]).getD 0 [] ≠
      [List.replicate 2 (0 : ℚ)] := by decide

/-- C9 (amended): for every input sample, when the cluster count is exactly 1
the gate returns the probability vector `[1]` with hard label `0`, and the
membership-probability derivative entry is the single zero scalar `[0]` (the
zero vector of the input space only when the input dimension is 1), all
without evaluating any Gaussian density — the results are independent of the
distribution list. -/
theorem C9_single_cluster_fast_path (dim : ℕ) (weight : List ℚ)
    (gauss_list gauss_list' : List Gauss) (x : List (List ℚ))
    (h1 : weight.length = 1) :
    (proba_cluster dim weight gauss_list x).1 = x.map (fun _ => [1])
    ∧ (proba_cluster dim weight gauss_list x).2 = x.map (fun _ => 0)
    ∧ derive_proba_cluster dim weight gauss_list x = x.map (fun _ => [[0]])
    ∧ proba_cluster dim weight gauss_list x =
        proba_cluster dim weight gauss_list' x
    ∧ derive_proba_cluster dim weight gauss_list x =
        derive_proba_cluster dim weight gauss_list' x := by
  simp [proba_cluster, derive_proba_cluster, h1]

/-- C9 witness: one cluster, one one-dimensional sample. -/
theorem C9_single_cluster_fast_path_witness :
    (proba_cluster 1 [1] [gaussEx] [[5]]).1 = [[(1 : ℚ)]]
    ∧ (proba_cluster 1 [1] [gaussEx] [[5]]).2 = [0]
    ∧ derive_proba_cluster 1 [1] [gaussEx] [[5]] = [[[(0 : ℚ)]]] := by
  have h := C9_single_cluster_fast_path 1 [1] [gaussEx] [gaussJunk] [[5]]
    (by decide)
  exact ⟨h.1, h.2.1, h.2.2.1⟩

/-! ### C3 -/

/-- C3: for every sample and every cluster count `K ≥ 2`, the per-sample gate
probabilities are the unnormalized values `weight[k] * pdf_k(x)` divided by
their sum whenever that sum is non-zero — and they then sum to 1 — while a
zero sum leaves the raw unnormalized values in place. -/
theorem C3_gate_probabilities_normalized (weight : List ℚ)
    (gauss_list : List Gauss) (x : List ℚ) (hK : 2 ≤ weight.length) :
    ((gateNumerators weight gauss_list x).sum ≠ 0 →
      (_proba_cluster_one_sample weight gauss_list x).1 =
        (gateNumerators weight gauss_list x).map
          (· / (gateNumerators weight gauss_list x).sum)
      ∧ ((_proba_cluster_one_sample weight gauss_list x).1).sum = 1)
    ∧ ((gateNumerators weight gauss_list x).sum = 0 →
      (_proba_cluster_one_sample weight gauss_list x).1 =
        gateNumerators weight gauss_list x) := by
  constructor
  · intro hs
    have h1 : (_proba_cluster_one_sample weight gauss_list x).1 =
        (gateNumerators weight gauss_list x).map
          (· / (gateNumerators weight gauss_list x).sum) := by
      simp only [_proba_cluster_one_sample, if_pos hs]
    refine ⟨h1, ?_⟩
    rw [h1, sum_map_div, div_self hs]
  · intro hs
    simp only [_proba_cluster_one_sample, hs]
    simp

/-- C3 witness: two clusters of weight ½ with unit densities. -/
theorem C3_gate_probabilities_normalized_witness :
    ((_proba_cluster_one_sample [1/2, 1/2] [gaussEx, gaussEx] [0, 0]).1).sum
      = 1 := by
  have h := C3_gate_probabilities_normalized [1/2, 1/2] [gaussEx, gaussEx]
    [0, 0] (by decide)
  refine (h.1 ?_).2
  have hr : List.range 2 = [0, 1] := rfl
  norm_num [gateNumerators, hr, gaussEx]

/-! ### C10 -/

/-- Membership from an indexed lookup. -/
theorem mem_of_getElem_eq_some {α : Type} :
    ∀ (l : List α) (i : ℕ) (a : α), l[i]? = some a → a ∈ l := by
  intro l
  induction l with
  | nil => intro i a h; simp at h
  | cons x xs ih =>
    intro i a h
    cases i with
    | zero =>
      rw [List.getElem?_cons_zero, Option.some_inj] at h
      exact h ▸ List.mem_cons_self _ _
    | succ n =>
      rw [List.getElem?_cons_succ] at h
      exact List.mem_cons_of_mem _ (ih n a h)

/-- Entries of the relative-error vector built by zipping the true and
computed outputs: every entry is finite when every true value is
non-zero. -/
theorem zipWith_err_isFinite :
    ∀ (y_true y_calc : List ℚ), (∀ t ∈ y_true, t ≠ 0) →
    ∀ e ∈ List.zipWith
      (fun t c => if t = 0
        then (if c = 0 then FVal.nan else FVal.inf)
        else FVal.fin |(t - c) / t|) y_true y_calc,
      e.isFinite = true := by
  intro y_true
  induction y_true with
  | nil => intro y_calc h e he; simp at he
  | cons t ts ih =>
    intro y_calc h e he
    cases y_calc with
    | nil => simp at he
    | cons c cs =>
      rw [List.zipWith_cons_cons] at he
      rcases List.mem_cons.mp he with h1 | h1
      · subst h1
        rw [if_neg (h t (List.mem_cons_self _ _))]
        rfl
      · exact ih cs (fun u hu => h u (List.mem_cons_of_mem _ hu)) e h1

theorem fgt_nan_right (x : FVal) : FVal.fgt x FVal.nan = false := by
  cases x <;> rfl

theorem fgt_any_inf (x : FVal) : FVal.fgt x FVal.inf = false := by
  cases x <;> rfl

/-- A `NaN` seed survives the whole `max` loop: nothing compares greater
than `NaN` under IEEE semantics. -/
theorem maxFoldAux_nan :
    ∀ (l : List FVal), maxFoldAux l FVal.nan = FVal.nan := by
  intro l
  induction l with
  | nil => rfl
  | cons x rest ih =>
    show maxFoldAux rest (if FVal.fgt x FVal.nan then x else FVal.nan) =
      FVal.nan
    rw [fgt_nan_right]
    simp only [Bool.false_eq_true, if_false]
    exact ih

/-- A `+∞` current value survives the whole `max` loop. -/
theorem maxFoldAux_inf :
    ∀ (l : List FVal), maxFoldAux l FVal.inf = FVal.inf := by
  intro l
  induction l with
  | nil => rfl
  | cons x rest ih =>
    show maxFoldAux rest (if FVal.fgt x FVal.inf then x else FVal.inf) =
      FVal.inf
    rw [fgt_any_inf]
    simp only [Bool.false_eq_true, if_false]
    exact ih

/-- The `max` loop returns its seed or one of the elements. -/
theorem maxFoldAux_mem :
    ∀ (l : List FVal) (cur : FVal),
    maxFoldAux l cur = cur ∨ maxFoldAux l cur ∈ l := by
  intro l
  induction l with
  | nil => intro cur; exact Or.inl rfl
  | cons x rest ih =>
    intro cur
    have hstep : maxFoldAux (x :: rest) cur =
        maxFoldAux rest (if FVal.fgt x cur then x else cur) := rfl
    rw [hstep]
    by_cases h : FVal.fgt x cur = true
    · rw [if_pos h]
      rcases ih x with h1 | h1
      · exact Or.inr (by rw [h1]; exact List.mem_cons_self _ _)
      · exact Or.inr (List.mem_cons_of_mem _ h1)
    · rw [if_neg h]
      rcases ih cur with h1 | h1
      · exact Or.inl h1
      · exact Or.inr (List.mem_cons_of_mem _ h1)

/-- With a `+∞` among the remaining elements, the `max` loop ends on `+∞`
(or on `NaN`, when a `NaN` current value blocks every comparison). -/
theorem maxFoldAux_inf_mem :
    ∀ (l : List FVal) (cur : FVal), FVal.inf ∈ l →
    maxFoldAux l cur = FVal.inf ∨ maxFoldAux l cur = FVal.nan := by
  intro l
  induction l with
  | nil => intro cur h; simp at h
  | cons x rest ih =>
    intro cur hmem
    have hstep : maxFoldAux (x :: rest) cur =
        maxFoldAux rest (if FVal.fgt x cur then x else cur) := rfl
    rw [hstep]
    rcases List.mem_cons.mp hmem with rfl | hmem
    · cases cur with
      | fin a =>
        rw [if_pos (show FVal.fgt FVal.inf (FVal.fin a) = true from rfl),
          maxFoldAux_inf]
        exact Or.inl rfl
      | inf =>
        rw [ite_self, maxFoldAux_inf]
        exact Or.inl rfl
      | nan =>
        rw [fgt_nan_right]
        simp only [Bool.false_eq_true, if_false]
        rw [maxFoldAux_nan]
        exact Or.inr rfl
    · exact ih _ hmem

/-- `max(err_rel)` with a `+∞` entry is non-finite (`+∞`, or `NaN` when the
seed is `NaN`). -/
theorem errRelMax_inf_mem (l : List FVal) (h : FVal.inf ∈ l) :
    errRelMax l = FVal.inf ∨ errRelMax l = FVal.nan := by
  cases l with
  | nil => simp at h
  | cons e rest =>
    show maxFoldAux rest e = _ ∨ _
    rcases List.mem_cons.mp h with rfl | hm
    · rw [maxFoldAux_inf]
      exact Or.inl rfl
    · exact maxFoldAux_inf_mem rest e hm

/-- Indexing a `zipWith` at an in-range position. -/
theorem getElem?_zipWith_of_lt {α β γ : Type} (f : α → β → γ)
    (l1 : List α) (l2 : List β) (d1 : α) (d2 : β) :
    ∀ (i : ℕ), i < l1.length → i < l2.length →
    (List.zipWith f l1 l2)[i]? = some (f (l1.getD i d1) (l2.getD i d2)) := by
  induction l1 generalizing l2 with
  | nil => intro i h1 h2; simp at h1
  | cons a as ih =>
    cases l2 with
    | nil => intro i h1 h2; simp at h2
    | cons b bs =>
      intro i h1 h2
      cases i with
      | zero => simp
      | succ n =>
        rw [List.zipWith_cons_cons]
        simp only [List.getElem?_cons_succ, List.getD_cons_succ]
        exact ih bs n (by simpa using h1) (by simpa using h2)

/-- C10: counterexample to the claim as stated.  The claim says a single
zero true output makes `err_rel_max` non-finite, but Python's builtin `max`
uses IEEE comparisons under which `NaN` never wins: at
`y_true = [1, 0]`, `y_calc = [2, 0]` the second entry is `0/0 = NaN`, yet
`max(err_rel) = max([100.0, NaN]) = 100.0` is finite, because the `NaN` is
not in the seed (first) position. -/
theorem C10_counterexample_max_stays_finite :
    ([(1 : ℚ), 0].getD 1 1 = 0)
    ∧ (mkError [1, 0] [2, 0]).err_rel = [FVal.fin 100, FVal.nan]
    ∧ (mkError [1, 0] [2, 0]).err_rel_max = FVal.fin 100
    ∧ ((mkError [1, 0] [2, 0]).err_rel_max).isFinite = true := by
  have herr0 : (mkError [1, 0] [2, 0]).err_rel =
      (List.zipWith (fun t c => if t = 0
        then (if c = 0 then FVal.nan else FVal.inf)
        else FVal.fin |(t - c) / t|) [(1 : ℚ), 0] [(2 : ℚ), 0]).map
        (FVal.smul 100) := rfl
  have h1 : (mkError [1, 0] [2, 0]).err_rel = [FVal.fin 100, FVal.nan] := by
    rw [herr0]
    norm_num [FVal.smul]
  have h2 : (mkError [1, 0] [2, 0]).err_rel_max = FVal.fin 100 := by
    show errRelMax (mkError [1, 0] [2, 0]).err_rel = FVal.fin 100
    rw [h1]
    rfl
  exact ⟨rfl, h1, h2, by rw [h2]; rfl⟩

/-- C10 (amended): the relative-error fields divide elementwise by the true
outputs.  With every true output non-zero, every `err_rel` entry, the mean
and the max are finite.  A zero true output at an in-range index makes that
`err_rel` entry non-finite (`+∞` or `NaN`) and poisons `err_rel_mean`; it
also makes `err_rel_max` non-finite when the predicted value there is
non-zero (the entry is `+∞`), or when the zero-truth entry is the first one
(a `NaN`/`+∞` seed survives the `max` loop) — but a `0/0` (`NaN`) entry
beyond the first position does not propagate through Python's builtin
`max`, so `err_rel_max` can remain finite (see the counterexample).
`l_two` (through its radicand `l_two_sq`), `mse`, `rmse` and `err_abs_max`
involve no division by the true outputs and are total rational fields of
the embedding throughout. -/
theorem C10_relative_errors_nonzero_truth (y_true y_calc : List ℚ) :
    ((∀ t ∈ y_true, t ≠ 0) →
      (∀ e ∈ (mkError y_true y_calc).err_rel, e.isFinite = true)
      ∧ ((mkError y_true y_calc).err_rel_mean).isFinite = true
      ∧ ((mkError y_true y_calc).err_rel_max).isFinite = true)
    ∧ (∀ i, i < y_true.length → i < y_calc.length → y_true.getD i 1 = 0 →
      (∃ e, ((mkError y_true y_calc).err_rel)[i]? = some e
        ∧ e.isFinite = false)
      ∧ ((mkError y_true y_calc).err_rel_mean).isFinite = false)
    ∧ (∀ i, i < y_true.length → i < y_calc.length → y_true.getD i 1 = 0 →
      y_calc.getD i 0 ≠ 0 →
      ((mkError y_true y_calc).err_rel_max).isFinite = false)
    ∧ (0 < y_true.length → 0 < y_calc.length → y_true.getD 0 1 = 0 →
      ((mkError y_true y_calc).err_rel_max).isFinite = false) := by
  have herr : (mkError y_true y_calc).err_rel =
      (List.zipWith (fun t c => if t = 0
        then (if c = 0 then FVal.nan else FVal.inf)
        else FVal.fin |(t - c) / t|) y_true y_calc).map (FVal.smul 100) :=
    rfl
  have hmean : (mkError y_true y_calc).err_rel_mean =
      errRelMean (mkError y_true y_calc).err_rel y_true.length := rfl
  have hmax : (mkError y_true y_calc).err_rel_max =
      errRelMax (mkError y_true y_calc).err_rel := rfl
  have hent : ∀ i, i < y_true.length → i < y_calc.length →
      ((mkError y_true y_calc).err_rel)[i]? =
        some (FVal.smul 100 (if y_true.getD i 1 = 0
          then (if y_calc.getD i 0 = 0 then FVal.nan else FVal.inf)
          else FVal.fin
            |(y_true.getD i 1 - y_calc.getD i 0) / y_true.getD i 1|)) := by
    intro i hi hic
    rw [herr, List.getElem?_map,
      getElem?_zipWith_of_lt _ y_true y_calc 1 0 i hi hic]
    rfl
  refine ⟨?_, ?_, ?_, ?_⟩
  · intro h
    have hallfin : ∀ e ∈ (mkError y_true y_calc).err_rel,
        e.isFinite = true := by
      rw [herr]
      intro e he
      rcases List.mem_map.mp he with ⟨e2, he2, rfl⟩
      have hfin := zipWith_err_isFinite y_true y_calc h e2 he2
      cases e2 with
      | fin q => rfl
      | inf => simp [FVal.isFinite] at hfin
      | nan => simp [FVal.isFinite] at hfin
    refine ⟨hallfin, ?_, ?_⟩
    · rw [hmean]
      unfold errRelMean
      have hnan : FVal.nan ∉ (mkError y_true y_calc).err_rel := by
        intro hm
        have := hallfin _ hm
        simp [FVal.isFinite] at this
      have hinf : FVal.inf ∉ (mkError y_true y_calc).err_rel := by
        intro hm
        have := hallfin _ hm
        simp [FVal.isFinite] at this
      rw [if_neg hnan, if_neg hinf]
      rfl
    · rw [hmax]
      cases hcl : (mkError y_true y_calc).err_rel with
      | nil => rfl
      | cons e rest =>
        show (maxFoldAux rest e).isFinite = true
        rcases maxFoldAux_mem rest e with hm | hm
        · rw [hm]
          exact hallfin e (by rw [hcl]; exact List.mem_cons_self _ _)
        · exact hallfin _ (by rw [hcl]; exact List.mem_cons_of_mem _ hm)
  · intro i hi hic hz
    have hE := hent i hi hic
    rw [hz, if_pos rfl] at hE
    have hcases : ((mkError y_true y_calc).err_rel)[i]? = some FVal.nan
        ∨ ((mkError y_true y_calc).err_rel)[i]? = some FVal.inf := by
      by_cases hc : y_calc.getD i 0 = 0
      · left
        rw [hE, if_pos hc]
        rfl
      · right
        rw [hE, if_neg hc]
        rfl
    constructor
    · rcases hcases with hE2 | hE2
      · exact ⟨FVal.nan, hE2, rfl⟩
      · exact ⟨FVal.inf, hE2, rfl⟩
    · rw [hmean]
      unfold errRelMean
      rcases hcases with hE2 | hE2
      · have hm : FVal.nan ∈ (mkError y_true y_calc).err_rel :=
          mem_of_getElem_eq_some _ i _ hE2
        rw [if_pos hm]
        rfl
      · have hm : FVal.inf ∈ (mkError y_true y_calc).err_rel :=
          mem_of_getElem_eq_some _ i _ hE2
        by_cases hn : FVal.nan ∈ (mkError y_true y_calc).err_rel
        · rw [if_pos hn]
          rfl
        · rw [if_neg hn, if_pos hm]
          rfl
  · intro i hi hic hz hc
    have hE := hent i hi hic
    rw [hz, if_pos rfl, if_neg hc] at hE
    have hm : FVal.inf ∈ (mkError y_true y_calc).err_rel :=
      mem_of_getElem_eq_some _ i _ hE
    rw [hmax]
    rcases errRelMax_inf_mem _ hm with h2 | h2 <;> rw [h2] <;> rfl
  · intro h0t h0c hz
    have hE := hent 0 h0t h0c
    rw [hz, if_pos rfl] at hE
    obtain ⟨rest, hcl⟩ : ∃ rest, (mkError y_true y_calc).err_rel =
        (FVal.smul 100 (if y_calc.getD 0 0 = 0 then FVal.nan else FVal.inf))
          :: rest := by
      cases hl : (mkError y_true y_calc).err_rel with
      | nil => rw [hl] at hE; simp at hE
      | cons a t =>
        rw [hl, List.getElem?_cons_zero, Option.some_inj] at hE
        exact ⟨t, by rw [hE]⟩
    rw [hmax, hcl]
    by_cases hc : y_calc.getD 0 0 = 0
    · rw [if_pos hc]
      show (maxFoldAux rest FVal.nan).isFinite = false
      rw [maxFoldAux_nan]
      rfl
    · rw [if_neg hc]
      show (maxFoldAux rest FVal.inf).isFinite = false
      rw [maxFoldAux_inf]
      rfl

/-- C10 witness: all-non-zero truth gives a finite max; a zero truth with
zero prediction poisons the mean; a zero truth with non-zero prediction
(`+∞` entry) makes the max non-finite; a zero truth in first position makes
the max non-finite. -/
theorem C10_relative_errors_nonzero_truth_witness :
    ((mkError [1, 2] [2, 5]).err_rel_max).isFinite = true
    ∧ ((mkError [1, 0] [2, 0]).err_rel_mean).isFinite = false
    ∧ ((mkError [1, 0] [2, 5]).err_rel_max).isFinite = false
    ∧ ((mkError [0, 1] [2, 5]).err_rel_max).isFinite = false := by
  have hA := (C10_relative_errors_nonzero_truth [1, 2] [2, 5]).1
    (by intro t ht; fin_cases ht <;> norm_num)
  have hB := ((C10_relative_errors_nonzero_truth [1, 0] [2, 0]).2.1 1
    (by decide) (by decide) (by norm_num)).2
  have hC := (C10_relative_errors_nonzero_truth [1, 0] [2, 5]).2.2.1 1
    (by decide) (by decide) (by norm_num) (by norm_num)
  have hD := (C10_relative_errors_nonzero_truth [0, 1] [2, 5]).2.2.2
    (by decide) (by decide) (by norm_num)
  exact ⟨hA.2.2, hB, hC, hD⟩

/-! ### C5 -/

/-- Reading a mapped list at an in-range position. -/
theorem getD_map_of_lt {α β : Type} (f : α → β) :
    ∀ (l : List α) (i : ℕ) (d : β) (da : α), i < l.length →
    (l.map f).getD i d = f (l.getD i da) := by
  intro l
  induction l with
  | nil => intro i d da h; simp at h
  | cons a as ih =>
    intro i d da h
    cases i with
    | zero => rfl
    | succ n =>
      simp only [List.map_cons, List.getD_cons_succ]
      exact ih n d da (by simpa using h)

/-- C5: with exactly one cluster (and hence a single local model) the hard
and smooth recombinations coincide on every input batch: the hard label is
`0` and the smooth weights are the vector `[1]`. -/
theorem C5_hard_eq_smooth_single_cluster (dim : ℕ) (weight : List ℚ)
    (gauss_list : List Gauss) (model_list : List (List ℚ → ℚ))
    (x : List (List ℚ)) (hw : weight.length = 1)
    (hm : model_list.length = 1) :
    _predict_hard_output dim weight gauss_list model_list x =
      _predict_smooth_output dim weight gauss_list model_list x := by
  obtain ⟨m, rfl⟩ : ∃ m, model_list = [m] := by
    match model_list, hm with
    | [m], _ => exact ⟨m, rfl⟩
  have hp : proba_cluster dim weight gauss_list x =
      (x.map (fun _ => [1]), x.map (fun _ => 0)) := by
    simp [proba_cluster, hw]
  simp only [_predict_hard_output, _predict_smooth_output, hp,
    List.length_map, List.length_cons, List.length_nil]
  apply List.map_congr_left
  intro i hi
  have hx : i < x.length := List.mem_range.mp hi
  rw [getD_map_of_lt (fun _ => (0 : ℕ)) x i 0 [] hx,
    getD_map_of_lt (fun _ => [(1 : ℚ)]) x i [] [] hx,
    show List.range 1 = [0] from rfl]
  simp

/-- C5 witness: one cluster, one local model, two concrete samples. -/
theorem C5_hard_eq_smooth_single_cluster_witness :
    _predict_hard_output 1 [1] [gaussEx] [fun v => v.sum + 3] [[2], [7]] =
      _predict_smooth_output 1 [1] [gaussEx] [fun v => v.sum + 3]
        [[2], [7]] :=
  C5_hard_eq_smooth_single_cluster 1 [1] [gaussEx] [fun v => v.sum + 3]
    [[2], [7]] (by decide) (by decide)

/-! ### C7 (and shared binning lemmas, also used for C8) -/

theorem binFoldl_length {α : Type} :
    ∀ (pairs : List (ℕ × α)) (bins : List (List α)),
    (binFoldl bins pairs).length = bins.length := by
  intro pairs
  induction pairs with
  | nil => intro bins; rfl
  | cons p rest ih =>
    intro bins
    show (binFoldl (bins.set p.1 ((bins.getD p.1 []) ++ [p.2])) rest).length
      = bins.length
    rw [ih]
    exact List.length_set bins p.1 _

/-- Reading one bin after the binning loop: the bin collects, in order, the
values whose label equals the bin index, appended to its initial content. -/
theorem binFoldl_getD {α : Type} :
    ∀ (pairs : List (ℕ × α)) (bins : List (List α)) (j : ℕ),
    j < bins.length → (∀ p ∈ pairs, p.1 < bins.length) →
    (binFoldl bins pairs).getD j [] =
      bins.getD j [] ++ (pairs.filter (fun p => p.1 = j)).map Prod.snd := by
  intro pairs
  induction pairs with
  | nil => intro bins j hj hp; simp [binFoldl]
  | cons p rest ih =>
    intro bins j hj hp
    obtain ⟨l, v⟩ := p
    have hl : l < bins.length := hp (l, v) (List.mem_cons_self _ _)
    have hstep : binFoldl bins ((l, v) :: rest) =
        binFoldl (bins.set l ((bins.getD l []) ++ [v])) rest := rfl
    rw [hstep, ih (bins.set l ((bins.getD l []) ++ [v])) j
      (by simpa using hj)
      (by intro q hq; simpa using hp q (List.mem_cons_of_mem _ hq))]
    by_cases hlj : l = j
    · subst hlj
      have hset : (bins.set l ((bins.getD l []) ++ [v])).getD l [] =
          (bins.getD l []) ++ [v] := by
        simp [List.getD_eq_getElem?_getD, List.getElem?_set_self hl]
      rw [hset]
      have hfil : ((l, v) :: rest).filter (fun p => p.1 = l) =
          (l, v) :: rest.filter (fun p => p.1 = l) := by
        simp [List.filter_cons]
      rw [hfil, List.map_cons, List.append_assoc, List.singleton_append]
    · have hset : (bins.set l ((bins.getD l []) ++ [v])).getD j [] =
          bins.getD j [] := by
        simp [List.getD_eq_getElem?_getD, List.getElem?_set_ne hlj]
      rw [hset]
      have hfil : ((l, v) :: rest).filter (fun p => p.1 = j) =
          rest.filter (fun p => p.1 = j) := by
        simp [List.filter_cons, hlj]
      rw [hfil]

/-- Appending one value inside one bin permutes the flattening by moving the
value to the end. -/
theorem flatten_set_append_perm {α : Type} :
    ∀ (bins : List (List α)) (l : ℕ) (v : α), l < bins.length →
    ((bins.set l ((bins.getD l []) ++ [v])).flatten).Perm
      (bins.flatten ++ [v]) := by
  intro bins
  induction bins with
  | nil => intro l v h; simp at h
  | cons b t ih =>
    intro l v h
    cases l with
    | zero =>
      simp only [List.set_cons_zero, List.getD_cons_zero, List.flatten_cons]
      rw [List.append_assoc]
      refine (List.Perm.append_left b ?_).trans
        (by rw [← List.append_assoc])
      exact List.perm_append_comm
    | succ n =>
      simp only [List.set_cons_succ, List.getD_cons_succ, List.flatten_cons]
      have hn : n < t.length := by simpa using h
      refine (List.Perm.append_left b (ih n v hn)).trans ?_
      rw [← List.append_assoc]

/-- The binning loop preserves the multiset of binned values: flattening the
final bins is a permutation of the initial content followed by the values. -/
theorem binFoldl_flatten_perm {α : Type} :
    ∀ (pairs : List (ℕ × α)) (bins : List (List α)),
    (∀ p ∈ pairs, p.1 < bins.length) →
    ((binFoldl bins pairs).flatten).Perm
      (bins.flatten ++ pairs.map Prod.snd) := by
  intro pairs
  induction pairs with
  | nil => intro bins hp; simp [binFoldl]
  | cons p rest ih =>
    intro bins hp
    obtain ⟨l, v⟩ := p
    have hl : l < bins.length := hp (l, v) (List.mem_cons_self _ _)
    have hstep : binFoldl bins ((l, v) :: rest) =
        binFoldl (bins.set l ((bins.getD l []) ++ [v])) rest := rfl
    rw [hstep]
    refine (ih (bins.set l ((bins.getD l []) ++ [v]))
      (by intro q hq; simpa using hp q (List.mem_cons_of_mem _ hq))).trans ?_
    refine (List.Perm.append_right (rest.map Prod.snd)
      (flatten_set_append_perm bins l v hl)).trans ?_
    rw [List.append_assoc, List.singleton_append]
    rfl

theorem getD_replicate_nil {α : Type} :
    ∀ (K j : ℕ), (List.replicate K ([] : List α)).getD j [] = [] := by
  intro K
  induction K with
  | zero => intro j; cases j <;> rfl
  | succ n ih =>
    intro j
    cases j with
    | zero => rfl
    | succ m => simp only [List.replicate_succ, List.getD_cons_succ]; exact ih m

theorem flatten_replicate_nil {α : Type} :
    ∀ (K : ℕ), (List.replicate K ([] : List α)).flatten = [] := by
  intro K
  induction K with
  | zero => rfl
  | succ n ih => simp only [List.replicate_succ, List.flatten_cons, List.nil_append]; exact ih

/-- C7: for labels in range and as many labels as samples,
`sort_values_by_cluster` is a true partition: `K` groups, the `j`-th group is
exactly the subsequence of rows labelled `j` (hence original relative order
is kept), and the concatenation of all groups is a permutation of the input
rows — every row lands in exactly one group, none is duplicated. -/
theorem C7_partitioner_true_partition {α : Type} (values : List α) (K : ℕ)
    (labels : List ℕ) (hlen : labels.length = values.length)
    (hlab : ∀ l ∈ labels, l < K) :
    (sort_values_by_cluster values K labels).length = K
    ∧ (∀ j, j < K →
        (sort_values_by_cluster values K labels).getD j [] =
          ((labels.zip values).filter (fun p => p.1 = j)).map Prod.snd)
    ∧ (∀ j, j < K →
        ((sort_values_by_cluster values K labels).getD j []).Sublist values)
    ∧ ((sort_values_by_cluster values K labels).flatten).Perm values := by
  have hbl : ∀ p ∈ labels.zip values, p.1 <
      (List.replicate K ([] : List α)).length := by
    intro p hp
    rw [List.length_replicate]
    exact hlab p.1 (List.of_mem_zip hp).1
  have hchar : ∀ j, j < K →
      (sort_values_by_cluster values K labels).getD j [] =
        ((labels.zip values).filter (fun p => p.1 = j)).map Prod.snd := by
    intro j hj
    unfold sort_values_by_cluster
    rw [binFoldl_getD (labels.zip values) _ j
      (by simpa using hj) hbl, getD_replicate_nil]
    rfl
  refine ⟨?_, hchar, ?_, ?_⟩
  · unfold sort_values_by_cluster
    rw [binFoldl_length]
    exact List.length_replicate K []
  · intro j hj
    rw [hchar j hj]
    have h1 : ((labels.zip values).filter (fun p => p.1 = j)).Sublist
        (labels.zip values) := List.filter_sublist _
    have h2 : (((labels.zip values).filter (fun p => p.1 = j)).map
        Prod.snd).Sublist ((labels.zip values).map Prod.snd) :=
      List.Sublist.map Prod.snd h1
    rwa [List.map_snd_zip labels values (le_of_eq hlen.symm)] at h2
  · unfold sort_values_by_cluster
    refine (binFoldl_flatten_perm (labels.zip values) _ hbl).trans ?_
    rw [flatten_replicate_nil, List.nil_append,
      List.map_snd_zip labels values (le_of_eq hlen.symm)]

/-- C7 witness: three rows, two clusters, labels `[1, 0, 1]`. -/
theorem C7_partitioner_true_partition_witness :
    (sort_values_by_cluster [10, 20, 30] 2 [1, 0, 1]).getD 0 [] = [20]
    ∧ (sort_values_by_cluster [10, 20, 30] 2 [1, 0, 1]).getD 1 [] = [10, 30]
    ∧ ((sort_values_by_cluster [10, 20, 30] 2 [1, 0, 1]).flatten).Perm
        [10, 20, 30] := by
  have h := C7_partitioner_true_partition [10, 20, 30] 2 [1, 0, 1]
    (by decide) (by decide)
  exact ⟨(h.2.1 0 (by decide)).trans (by decide),
    (h.2.1 1 (by decide)).trans (by decide), h.2.2.2⟩

/-! ### C8 -/

/-- The nested `while` loops of `cut_list` are the binning loop over the
cyclic label sequence. -/
theorem cutListAux_eq_binFoldl {α : Type} :
    ∀ (l : List α) (n j : ℕ) (bins : List (List α)),
    cutListAux l n j bins = binFoldl bins ((cycLabels j n l.length).zip l) := by
  intro l
  induction l with
  | nil => intro n j bins; rfl
  | cons v rest ih =>
    intro n j bins
    show cutListAux rest n (if j + 1 = n then 0 else j + 1)
        (bins.set j ((bins.getD j []) ++ [v])) = _
    rw [ih]
    rfl

/-- Starting below the modulus, the cyclic label sequence is plain modular
arithmetic: the `i`-th label is `(j + i) % n`. -/
theorem cycLabels_eq_map_mod :
    ∀ (k j n : ℕ), 0 < n → j < n →
    cycLabels j n k = (List.range k).map (fun i => (j + i) % n) := by
  intro k
  induction k with
  | zero => intros; rfl
  | succ k ih =>
    intro j n hn hj
    have hj' : (if j + 1 = n then 0 else j + 1) = (j + 1) % n := by
      by_cases h : j + 1 = n
      · simp [h, Nat.mod_self]
      · have hlt : j + 1 < n := lt_of_le_of_ne (Nat.succ_le_of_lt hj) h
        simp [h, Nat.mod_eq_of_lt hlt]
    show j :: cycLabels (if j + 1 = n then 0 else j + 1) n k = _
    rw [hj', ih ((j + 1) % n) n hn (Nat.mod_lt _ hn),
      List.range_succ_eq_map, List.map_cons, List.map_map]
    congr 1
    · simp [Nat.mod_eq_of_lt hj]
    · apply List.map_congr_left
      intro i _
      show ((j + 1) % n + i) % n = (j + Nat.succ i) % n
      rw [Nat.mod_add_mod]
      congr 1
      omega

/-- `cut_list l n` is the binning of row `i` into block `i % n`. -/
theorem cut_list_eq_binFoldl {α : Type} (l : List α) (n : ℕ) (hn : 0 < n) :
    cut_list l n = binFoldl (List.replicate n [])
      (((List.range l.length).map (· % n)).zip l) := by
  unfold cut_list
  rw [cutListAux_eq_binFoldl, cycLabels_eq_map_mod l.length 0 n hn hn]
  simp

/-- Filtering by block index over the mod-labelled zip is filtering the
enumeration by row index mod `n`. -/
theorem mod_zip_filter_map_snd {α : Type} (l : List α) (n j : ℕ) :
    ((((List.range l.length).map (· % n)).zip l).filter
      (fun p => p.1 = j)).map Prod.snd
    = (l.enum.filter (fun p => p.1 % n = j)).map Prod.snd := by
  rw [List.enum_eq_zip_range, List.zip_map_left, List.filter_map,
    List.map_map]
  rfl

theorem enumFrom_filter_ne_zero {α : Type} :
    ∀ (t : List α) (s : ℕ), 0 < s →
    (t.enumFrom s).filter (fun p => p.1 ≠ 0) = t.enumFrom s := by
  intro t
  induction t with
  | nil => intros; rfl
  | cons a t ih =>
    intro s hs
    rw [List.enumFrom_cons, List.filter_cons]
    have hd : decide ((s, a).1 ≠ 0) = true := by
      simp; omega
    rw [hd, ih (s + 1) (by omega)]
    simp

/-- `concat_except(list_, 0)` concatenates everything but the head. -/
theorem concat_except_zero {α : Type} (L : List (List α)) :
    concat_except L 0 = (L.drop 1).flatten := by
  cases L with
  | nil => rfl
  | cons h t =>
    unfold concat_except
    rw [List.enum_cons, List.filter_cons]
    have hd : decide (((0 : ℕ), h).1 ≠ 0) = false := by simp
    rw [hd]
    simp only [Bool.false_eq_true, if_false]
    rw [enumFrom_filter_ne_zero t 1 (by norm_num), List.enumFrom_map_snd]
    simp

/-- C8: `train` without an external validation set splits the rows round
robin into 10 blocks — row `i` lands in block `i % 10`, keeping order — the
validation set is block 0 (rows 0, 10, 20, …), the training set is the
concatenation of blocks 1 through 9, and validation ++ training is a
permutation of the dataset: together they hold every row exactly once. -/
theorem C8_round_robin_split {α : Type} (values : List α) :
    (cut_list values 10).length = 10
    ∧ (∀ j, j < 10 → (cut_list values 10).getD j [] =
        ((values.enum.filter (fun p => p.1 % 10 = j)).map Prod.snd))
    ∧ concat_except (cut_list values 10) 0 =
        ((cut_list values 10).drop 1).flatten
    ∧ (((cut_list values 10).getD 0 []) ++
        concat_except (cut_list values 10) 0).Perm values := by
  have h10 : (0 : ℕ) < 10 := by norm_num
  have heq := cut_list_eq_binFoldl values 10 h10
  have hlab : ∀ p ∈ ((List.range values.length).map (· % 10)).zip values,
      p.1 < (List.replicate 10 ([] : List α)).length := by
    intro p hp
    rw [List.length_replicate]
    have hfst := (List.of_mem_zip hp).1
    rcases List.mem_map.mp hfst with ⟨i, _, hip⟩
    omega
  have hlen : (cut_list values 10).length = 10 := by
    rw [heq, binFoldl_length, List.length_replicate]
  have hchar : ∀ j, j < 10 → (cut_list values 10).getD j [] =
      ((values.enum.filter (fun p => p.1 % 10 = j)).map Prod.snd) := by
    intro j hj
    rw [heq, binFoldl_getD _ _ j (by rw [List.length_replicate]; exact hj)
      hlab, getD_replicate_nil, List.nil_append, mod_zip_filter_map_snd]
  have hconcat : concat_except (cut_list values 10) 0 =
      ((cut_list values 10).drop 1).flatten := concat_except_zero _
  refine ⟨hlen, hchar, hconcat, ?_⟩
  have hperm : ((cut_list values 10).flatten).Perm values := by
    rw [heq]
    refine (binFoldl_flatten_perm _ _ hlab).trans ?_
    rw [flatten_replicate_nil, List.nil_append,
      List.map_snd_zip _ _ (by rw [List.length_map, List.length_range])]
  rw [hconcat]
  cases hcl : cut_list values 10 with
  | nil => rw [hcl] at hlen; simp at hlen
  | cons c0 rest =>
    rw [hcl] at hperm
    rw [List.flatten_cons] at hperm
    simpa using hperm

/-- C8 witness: twelve rows; block 0 is rows 0 and 10, and the split is a
permutation of the dataset. -/
theorem C8_round_robin_split_witness :
    (cut_list (List.range 12) 10).getD 0 [] = [0, 10]
    ∧ (((cut_list (List.range 12) 10).getD 0 []) ++
        concat_except (cut_list (List.range 12) 10) 0).Perm
        (List.range 12) := by
  have h := C8_round_robin_split (List.range 12)
  exact ⟨(h.2.1 0 (by decide)).trans (by decide), h.2.2.2⟩

/-! ### C6 -/

theorem dictUpsert_not_mem {β : Type} :
    ∀ (d : List (String × β)) (k : String) (v : β),
    k ∉ d.map Prod.fst → dictUpsert d k v = d ++ [(k, v)] := by
  intro d
  induction d with
  | nil => intros; rfl
  | cons p rest ih =>
    intro k v h
    obtain ⟨k', v'⟩ := p
    rw [List.map_cons] at h
    simp only [List.mem_cons, not_or] at h
    show (if k' = k then _ else _) = _
    rw [if_neg (fun he => h.1 he.symm), ih k v h.2]
    rfl

/-- Building a Python dict by fresh-key insertions over the qualifying
candidates is, for pairwise-distinct `sm.name`s, the plain association
list in iteration order. -/
theorem foldl_upsert_eq {β : Type} (f : CandidateSM → β) :
    ∀ (cands : List CandidateSM) (d : List (String × β)),
    ((d.map Prod.fst) ++
      (qualifying cands).map (fun c => c.smName)).Nodup →
    cands.foldl (fun d sm => if sm.catalogName ∈ excludedNames then d
      else dictUpsert d sm.smName (f sm)) d
    = d ++ (qualifying cands).map (fun c => (c.smName, f c)) := by
  intro cands
  induction cands with
  | nil => intro d h; simp [qualifying]
  | cons c rest ih =>
    intro d h
    by_cases hc : c.catalogName ∈ excludedNames
    · have hq : qualifying (c :: rest) = qualifying rest := by
        simp [qualifying, List.filter_cons, hc]
      rw [hq] at h
      rw [List.foldl_cons, if_pos hc, hq]
      exact ih d h
    · have hq : qualifying (c :: rest) = c :: qualifying rest := by
        simp [qualifying, List.filter_cons, hc]
      rw [hq] at h
      rw [List.map_cons] at h
      have hnotin : c.smName ∉ d.map Prod.fst := by
        intro hmem
        rcases List.nodup_append.mp h with ⟨h1, h2, h3⟩
        exact h3 hmem (List.mem_cons_self _ _)
      rw [List.foldl_cons, if_neg hc,
        dictUpsert_not_mem d c.smName (f c) hnotin]
      have hd' : (((d ++ [(c.smName, f c)]).map Prod.fst) ++
          (qualifying rest).map (fun c => c.smName)).Nodup := by
        rw [List.map_append, List.append_assoc]
        simpa using h
      rw [ih (d ++ [(c.smName, f c)]) hd', hq, List.map_cons,
        List.append_assoc, List.singleton_append]

theorem bestLoop_foldl_spec :
    ∀ (entries : List (String × ℚ)) (pn : String) (pv : ℚ),
    ∃ q, entries.foldl (fun best r =>
        match best with
        | none => some r
        | some (bn, bv) => if r.2 < bv then some r else some (bn, bv))
        (some (pn, pv))
      = some q ∧ (q = (pn, pv) ∨ q ∈ entries) ∧ q.2 ≤ pv
      ∧ ∀ r ∈ entries, q.2 ≤ r.2 := by
  intro entries
  induction entries with
  | nil =>
    intro pn pv
    exact ⟨(pn, pv), rfl, Or.inl rfl, le_refl _, by intro r hr; simp at hr⟩
  | cons e rest ih =>
    intro pn pv
    obtain ⟨en, ev⟩ := e
    rw [List.foldl_cons]
    by_cases he : ev < pv
    · have hstep : (match some (pn, pv) with
          | none => some (en, ev)
          | some (bn, bv) =>
              if (en, ev).2 < bv then some (en, ev) else some (bn, bv)) =
            some (en, ev) := by
        simp [he]
      rw [hstep]
      obtain ⟨q, h1, h2, h3, h4⟩ := ih en ev
      refine ⟨q, h1, ?_, le_of_lt (lt_of_le_of_lt h3 he), ?_⟩
      · rcases h2 with h2 | h2
        · exact Or.inr (h2 ▸ List.mem_cons_self _ _)
        · exact Or.inr (List.mem_cons_of_mem _ h2)
      · intro r hr
        rcases List.mem_cons.mp hr with rfl | hr
        · exact h3
        · exact h4 r hr
    · have hstep : (match some (pn, pv) with
          | none => some (en, ev)
          | some (bn, bv) =>
              if (en, ev).2 < bv then some (en, ev) else some (bn, bv)) =
            some (pn, pv) := by
        simp [he]
      rw [hstep]
      obtain ⟨q, h1, h2, h3, h4⟩ := ih pn pv
      refine ⟨q, h1, ?_, h3, ?_⟩
      · rcases h2 with h2 | h2
        · exact Or.inl h2
        · exact Or.inr (List.mem_cons_of_mem _ h2)
      · intro r hr
        rcases List.mem_cons.mp hr with rfl | hr
        · exact le_trans h3 (not_lt.mp he)
        · exact h4 r hr

/-- The minimum-search loop returns an entry of minimal score. -/
theorem bestLoop_min (entries : List (String × ℚ)) (hne : entries ≠ []) :
    ∃ q, bestLoop entries = some q ∧ q ∈ entries ∧
      ∀ r ∈ entries, q.2 ≤ r.2 := by
  cases entries with
  | nil => exact absurd rfl hne
  | cons e rest =>
    obtain ⟨en, ev⟩ := e
    obtain ⟨q, h1, h2, h3, h4⟩ := bestLoop_foldl_spec rest en ev
    refine ⟨q, h1, ?_, ?_⟩
    · rcases h2 with h2 | h2
      · exact h2 ▸ List.mem_cons_self _ _
      · exact List.mem_cons_of_mem _ h2
    · intro r hr
      rcases List.mem_cons.mp hr with rfl | hr
      · exact h3
      · exact h4 r hr

theorem dictGet_map_eq {β : Type} (g : CandidateSM → β) :
    ∀ (l : List CandidateSM) (c : CandidateSM), c ∈ l →
    ((l.map (fun c => c.smName)).Nodup) →
    dictGet (l.map (fun c => (c.smName, g c))) c.smName = some (g c) := by
  intro l
  induction l with
  | nil => intro c hc; intro _; simp at hc
  | cons a rest ih =>
    intro c hc hnd
    rw [List.map_cons] at hnd
    rw [List.nodup_cons] at hnd
    rw [List.map_cons]
    show (if a.smName = c.smName then _ else _) = _
    rcases List.mem_cons.mp hc with rfl | hmem
    · rw [if_pos rfl]
    · have hne : a.smName ≠ c.smName := by
        intro he
        exact hnd.1 (he ▸ List.mem_map_of_mem (fun c => c.smName) hmem)
      rw [if_neg hne]
      exact ih c hmem hnd.2

theorem zipWith_sq_nonneg :
    ∀ (l1 l2 : List ℚ),
    ∀ q ∈ List.zipWith (fun t c => (t - c) ^ 2) l1 l2, 0 ≤ q := by
  intro l1
  induction l1 with
  | nil => intro l2 q hq; simp at hq
  | cons a as ih =>
    intro l2 q hq
    cases l2 with
    | nil => simp at hq
    | cons b bs =>
      rw [List.zipWith_cons_cons] at hq
      rcases List.mem_cons.mp hq with rfl | hq
      · exact sq_nonneg _
      · exact ih bs q hq

theorem mseOnTest_nonneg (expected actual : List ℚ) :
    0 ≤ mseOnTest expected actual := by
  unfold mseOnTest l2sq
  apply div_nonneg
  · exact List.sum_nonneg (zipWith_sq_nonneg expected actual)
  · exact Nat.cast_nonneg _

/-- Justification for modelling the source's comparison of
`rmse = mse ** 0.5` values by the comparison of the `mse` values: on the
(always nonnegative) mean squared errors, the square root is strictly
monotone, so both comparisons order candidates identically. -/
theorem sqrt_cmp_agrees_with_mse_cmp (a b : ℚ) (ha : 0 ≤ a) :
    Real.sqrt a < Real.sqrt b ↔ (a : ℝ) < (b : ℝ) :=
  Real.sqrt_lt_sqrt_iff (by exact_mod_cast ha)

/-- C6: with at least two qualifying candidates (distinct model types, hence
distinct `sm.name`s), `_find_best_model` returns a qualifying trained
candidate whose validation RMSE `√(Σ(expected-actual)²/n)` is not higher
than that of any other qualifying candidate it evaluated. -/
theorem C6_selector_returns_min_rmse (expected : List ℚ)
    (cands : List CandidateSM)
    (hq : 2 ≤ (qualifying cands).length)
    (hnd : ((qualifying cands).map (fun c => c.smName)).Nodup) :
    ∃ best, _find_best_model expected cands = some best
      ∧ best ∈ qualifying cands
      ∧ ∀ c ∈ qualifying cands,
          Real.sqrt (mseOnTest expected best.actual : ℝ) ≤
            Real.sqrt (mseOnTest expected c.actual : ℝ) := by
  have hrm : evalLoop (fun sm => mseOnTest expected sm.actual) cands
      = (qualifying cands).map
          (fun c => (c.smName, mseOnTest expected c.actual)) := by
    unfold evalLoop
    rw [foldl_upsert_eq (fun sm => mseOnTest expected sm.actual) cands []
      (by simpa using hnd)]
    simp
  have hsm : evalLoop (fun sm => sm) cands
      = (qualifying cands).map (fun c => (c.smName, c)) := by
    unfold evalLoop
    rw [foldl_upsert_eq (fun sm => sm) cands [] (by simpa using hnd)]
    simp
  have hne : (qualifying cands).map
      (fun c => (c.smName, mseOnTest expected c.actual)) ≠ [] := by
    intro h0
    have hl : (qualifying cands).length = 0 := by
      simpa using congrArg List.length h0
    omega
  obtain ⟨q, hb1, hb2, hb3⟩ := bestLoop_min _ hne
  rcases List.mem_map.mp hb2 with ⟨cb, hcb, hqe⟩
  obtain ⟨qn, qv⟩ := q
  have hqn : cb.smName = qn := congrArg Prod.fst hqe
  have hqv : mseOnTest expected cb.actual = qv := congrArg Prod.snd hqe
  refine ⟨cb, ?_, hcb, ?_⟩
  · simp only [_find_best_model]
    rw [hrm, hsm, hb1]
    show dictGet ((qualifying cands).map (fun c => (c.smName, c))) qn
      = some cb
    rw [← hqn]
    exact dictGet_map_eq (fun c => c) (qualifying cands) cb hcb hnd
  · intro c hc
    have hmem : (c.smName, mseOnTest expected c.actual) ∈
        (qualifying cands).map
          (fun c => (c.smName, mseOnTest expected c.actual)) :=
      List.mem_map_of_mem _ hc
    have hle := hb3 _ hmem
    rw [← hqv] at hle
    exact Real.sqrt_le_sqrt (by exact_mod_cast hle)

/-- C6 witness: two qualifying candidates; QP has the smaller validation
error and is selected. -/
theorem C6_selector_returns_min_rmse_witness :
    ∃ best, _find_best_model [0, 0]
        [⟨"LS", "LS", [1, 1]⟩, ⟨"QP", "QP", [0, 0]⟩] = some best
      ∧ best ∈ qualifying [⟨"LS", "LS", [1, 1]⟩, ⟨"QP", "QP", [0, 0]⟩]
      ∧ ∀ c ∈ qualifying [⟨"LS", "LS", [1, 1]⟩, ⟨"QP", "QP", [0, 0]⟩],
          Real.sqrt (mseOnTest [0, 0] best.actual : ℝ) ≤
            Real.sqrt (mseOnTest [0, 0] c.actual : ℝ) :=
  C6_selector_returns_min_rmse [0, 0]
    [⟨"LS", "LS", [1, 1]⟩, ⟨"QP", "QP", [0, 0]⟩] (by decide) (by decide)

end Moe
